import Mathlib

/-!
Verification of the SIL instruction layer (`lib/SIL/Instruction.cpp`):
block-membership traits and splice transfer, instruction removal and
erasure, terminator successor dispatch, variable-length instruction
construction, and integer-literal value extraction.
-/

namespace SILModel

/-- Instruction identifiers: instructions are identity-based nodes, so we
model each `Instruction*` as an opaque numeric identity. -/
abbrev InstId := Nat

/-- Basic-block identifiers, modelling `BasicBlock*` identity. -/
abbrev BlockId := Nat

/-- The block-membership state of the IR: each instruction's parent
back-reference (`Instruction::ParentBB`), each block's ordered intrusive
instruction list (`BasicBlock::getInsts()`), and which instructions are
still allocated (`live`, cleared only by deletion in `erase`). -/
structure ListState where
  parent : InstId → Option BlockId
  insts : BlockId → List InstId
  live : InstId → Bool

/-- Embeds `ilist_traits<Instruction>::addNodeToList`:
`assert(I->ParentBB == 0 && "Already in a list!"); I->ParentBB = getContainingBlock();`.
`none` models the fatal assertion firing; `b` is the containing block
reconstructed by `getContainingBlock()`. -/
def addNodeToList (s : ListState) (b : BlockId) (i : InstId) : Option ListState :=
  if s.parent i = none then
    some { s with parent := fun j => if j = i then some b else s.parent j }
  else none

/-- Embeds `ilist_traits<Instruction>::removeNodeFromList`:
`assert(I->ParentBB && "Not in a list!"); I->ParentBB = 0;`.
`none` models the fatal assertion firing. -/
def removeNodeFromList (s : ListState) (i : InstId) : Option ListState :=
  if s.parent i = none then none
  else some { s with parent := fun j => if j = i then none else s.parent j }

/-- Modelled from the spec: the intrusive list's insertion of an
instruction into a block (§4.3 "On insertion, the block sets the
instruction's parent back-reference to itself"): the node is linked into
the block's chain (appended, as program order is insertion order) and the
`addNodeToList` trait callback runs. -/
def insertInst (s : ListState) (b : BlockId) (i : InstId) : Option ListState :=
  match addNodeToList s b i with
  | none => none
  | some t => some { t with insts := fun c => if c = b then t.insts c ++ [i] else t.insts c }

/-- Embeds `Instruction::removeFromParent`:
`getParent()->getInsts().remove(this);` — `getParent()` requires a non-null
parent; the list `remove` unlinks the node from its chain and invokes the
`removeNodeFromList` trait callback, which clears the parent pointer. The
node is not deallocated. -/
def removeFromParent (s : ListState) (i : InstId) : Option ListState :=
  match s.parent i with
  | none => none
  | some b =>
      removeNodeFromList
        { s with insts := fun c => if c = b then (s.insts c).erase i else s.insts c } i

/-- Embeds `Instruction::eraseFromParent`:
`getParent()->getInsts().erase(this);` — unlink exactly as `remove` does,
then delete the node (modelled by clearing `live`). -/
def eraseFromParent (s : ListState) (i : InstId) : Option ListState :=
  match removeFromParent s i with
  | none => none
  | some t => some { t with live := fun j => if j = i then false else t.live j }

/-- Embeds `ilist_traits<Instruction>::transferNodesFromList`: the
destination traits (containing block `thisParent`) receive the moved range
`moved` out of the source traits (containing block `l2Parent`). The block
identities are compared once; when equal the per-instruction update pass
is skipped, otherwise each moved instruction's `ParentBB` is set to
`thisParent`. -/
def transferNodesFromList (par : InstId → Option BlockId) (thisParent l2Parent : BlockId)
    (moved : List InstId) : InstId → Option BlockId :=
  if thisParent = l2Parent then par
  else fun i => if i ∈ moved then some thisParent else par i

/-- Modelled from the spec: the intrusive list `splice` operation (§4.3):
the contiguous range `[lo, lo+len)` of `src`'s instruction list is unlinked
and relinked before position `destPos` of `dest`'s list (for a same-block
splice, before position `destPos` of what remains after unlinking), and
then the `transferNodesFromList` trait callback runs on the moved range. -/
def splice (s : ListState) (dest : BlockId) (destPos : Nat) (src : BlockId)
    (lo len : Nat) : ListState :=
  let L := s.insts src
  let moved := (L.drop lo).take len
  let remainder := L.take lo ++ L.drop (lo + len)
  let instsAfter : BlockId → List InstId :=
    if dest = src then
      fun c => if c = src then remainder.take destPos ++ moved ++ remainder.drop destPos
               else s.insts c
    else
      fun c =>
        if c = src then remainder
        else if c = dest then
          (s.insts dest).take destPos ++ moved ++ (s.insts dest).drop destPos
        else s.insts c
  { s with insts := instsAfter,
           parent := transferNodesFromList s.parent dest src moved }

/-- Well-formedness of the membership state: every block's list is
duplicate-free (nodes are identity-linked), and an instruction is in a
block's list exactly when its parent back-reference names that block. -/
def WF (s : ListState) : Prop :=
  (∀ b, (s.insts b).Nodup) ∧ ∀ i b, i ∈ s.insts b ↔ s.parent i = some b

/-- A concrete empty membership state used to instantiate theorems. -/
def testS0 : ListState :=
  { parent := fun _ => none, insts := fun _ => [], live := fun _ => true }

theorem testS0_wf : WF testS0 := by
  constructor
  · intro b; simp [testS0]
  · intro i b; simp [testS0]

/-- A concrete one-instruction state (instruction 0 linked into block 0). -/
def testS0b : ListState :=
  { parent := fun j => if j = 0 then some 0 else none,
    insts := fun c => if c = 0 then [0] else [], live := fun _ => true }

theorem insertInst_eq {s t : ListState} {b : BlockId} {i : InstId}
    (h : insertInst s b i = some t) :
    s.parent i = none ∧
    t = { s with parent := fun j => if j = i then some b else s.parent j,
                 insts := fun c => if c = b then s.insts c ++ [i] else s.insts c } := by
  by_cases hp : s.parent i = none
  · refine ⟨hp, ?_⟩
    simp [insertInst, addNodeToList, hp] at h
    exact h.symm
  · simp [insertInst, addNodeToList, hp] at h

theorem removeFromParent_eq {s t : ListState} {i : InstId} {b : BlockId}
    (h : removeFromParent s i = some t) (hp : s.parent i = some b) :
    t = { s with parent := fun j => if j = i then none else s.parent j,
                 insts := fun c => if c = b then (s.insts c).erase i else s.insts c } := by
  simp [removeFromParent, hp, removeNodeFromList] at h
  exact h.symm

theorem insertInst_parent {s t : ListState} {b : BlockId} {i : InstId}
    (h : insertInst s b i = some t) : t.parent i = some b := by
  obtain ⟨-, ht⟩ := insertInst_eq h
  subst ht
  simp

theorem removeFromParent_parent {s t : ListState} {i : InstId}
    (h : removeFromParent s i = some t) : t.parent i = none := by
  cases hp : s.parent i with
  | none => simp [removeFromParent, hp] at h
  | some b =>
    have ht := removeFromParent_eq h hp
    subst ht
    simp

theorem WF_insertInst {s t : ListState} {b : BlockId} {i : InstId}
    (hw : WF s) (h : insertInst s b i = some t) : WF t := by
  obtain ⟨hp, ht⟩ := insertInst_eq h
  have hni : ∀ c, i ∉ s.insts c := by
    intro c hc
    rw [hw.2 i c, hp] at hc
    exact Option.noConfusion hc
  subst ht
  constructor
  · intro c
    by_cases hc : c = b <;> simp [hc, List.nodup_append, hw.1, hni]
  · intro j c
    by_cases hj : j = i
    · subst hj
      by_cases hc : c = b
      · subst hc
        simp
      · simp only [ListState.insts, ListState.parent, if_neg hc, if_pos rfl]
        simp [hni c]
        exact fun h' => hc h'.symm
    · by_cases hc : c = b
      · subst hc
        simp [hj, hw.2]
      · simp [hj, hc, hw.2]

theorem WF_removeFromParent {s t : ListState} {i : InstId}
    (hw : WF s) (h : removeFromParent s i = some t) : WF t := by
  cases hp : s.parent i with
  | none => simp [removeFromParent, hp] at h
  | some b =>
    have ht := removeFromParent_eq h hp
    subst ht
    constructor
    · intro c
      by_cases hc : c = b
      · subst hc
        simp [(hw.1 c).erase i]
      · simp [hc, hw.1]
    · intro j c
      by_cases hj : j = i
      · subst hj
        by_cases hc : c = b
        · subst hc
          simp [(hw.1 _).mem_erase_iff]
        · simp only [ListState.insts, ListState.parent, if_neg hc, if_pos rfl]
          constructor
          · intro hmem
            rw [hw.2 j c] at hmem
            rw [hp] at hmem
            exact absurd (Option.some.inj hmem).symm hc
          · intro h'
            exact Option.noConfusion h'
      · by_cases hc : c = b
        · subst hc
          simp [hj, List.mem_erase_of_ne hj, hw.2]
        · simp [hj, hc, hw.2]

theorem WF_linked_iff {s : ListState} (hw : WF s) (j : InstId) :
    s.parent j ≠ none ↔ ∃ c, j ∈ s.insts c := by
  constructor
  · intro hne
    cases hp : s.parent j with
    | none => exact absurd hp hne
    | some c => exact ⟨c, (hw.2 j c).2 hp⟩
  · rintro ⟨c, hc⟩
    rw [hw.2 j c] at hc
    simp [hc]

/-- C2: after a block's list insertion of instruction `i`, its parent
back-reference equals that block; after `removeFromParent` it is null; and
on any well-formed state the parent is non-null exactly when the
instruction is linked into some block's instruction list (and this
invariant is preserved). -/
theorem C2_parent_consistency (s s1 s2 : ListState) (b : BlockId) (i : InstId)
    (hw : WF s) (h1 : insertInst s b i = some s1) (h2 : removeFromParent s1 i = some s2) :
    s1.parent i = some b ∧ s2.parent i = none ∧ WF s1 ∧ WF s2 ∧
    (∀ j, s.parent j ≠ none ↔ ∃ c, j ∈ s.insts c) ∧
    (∀ j, s1.parent j ≠ none ↔ ∃ c, j ∈ s1.insts c) := by
  have hw1 := WF_insertInst hw h1
  exact ⟨insertInst_parent h1, removeFromParent_parent h2, hw1,
    WF_removeFromParent hw1 h2, WF_linked_iff hw, WF_linked_iff hw1⟩

/-- Witness for C2 at a concrete state: insert instruction 0 into block 0
of the empty state, then remove it. -/
theorem C2_parent_consistency_witness : ∃ s1 s2,
    insertInst testS0 0 0 = some s1 ∧ removeFromParent s1 0 = some s2 ∧
    s1.parent 0 = some 0 ∧ s2.parent 0 = none := by
  refine ⟨_, _, rfl, rfl, ?_⟩
  have h := C2_parent_consistency testS0 _ _ 0 0 testS0_wf rfl rfl
  exact ⟨h.1, h.2.1⟩

/-- C7: inserting an instruction whose parent is already non-null trips the
`"Already in a list!"` assertion; removing one whose parent is null trips
the `"Not in a list!"` assertion; under the respective preconditions
neither assertion fires. -/
theorem C7_link_assertions (s : ListState) (b : BlockId) (i : InstId) :
    (s.parent i ≠ none → addNodeToList s b i = none) ∧
    (s.parent i = none → removeNodeFromList s i = none) ∧
    (s.parent i = none → (addNodeToList s b i).isSome = true) ∧
    (s.parent i ≠ none → (removeNodeFromList s i).isSome = true) := by
  refine ⟨?_, ?_, ?_, ?_⟩ <;> intro hp <;> simp [addNodeToList, removeNodeFromList, hp]

/-- Witness for C7 on concrete states exercising all four branches. -/
theorem C7_link_assertions_witness :
    addNodeToList testS0b 1 0 = none ∧ removeNodeFromList testS0 0 = none ∧
    (addNodeToList testS0 0 0).isSome = true ∧
    (removeNodeFromList testS0b 0).isSome = true :=
  ⟨(C7_link_assertions testS0b 1 0).1 (by simp [testS0b]),
   (C7_link_assertions testS0 0 0).2.1 rfl,
   (C7_link_assertions testS0 0 0).2.2.1 rfl,
   (C7_link_assertions testS0b 0 0).2.2.2 (by simp [testS0b])⟩

/-- C8: on a linked instruction, `removeFromParent` unlinks without
deallocating (parent cleared, still live) while `eraseFromParent` unlinks
and deallocates; after either, the former owning block's list never yields
the instruction. -/
theorem C8_remove_vs_erase (s : ListState) (i : InstId) (b : BlockId)
    (hp : s.parent i = some b) (hnd : (s.insts b).Nodup) (hl : s.live i = true) :
    ∃ sr se, removeFromParent s i = some sr ∧ eraseFromParent s i = some se ∧
      i ∉ sr.insts b ∧ i ∉ se.insts b ∧
      sr.live i = true ∧ se.live i = false ∧
      sr.parent i = none ∧ se.parent i = none := by
  have hr : removeFromParent s i =
      some { s with parent := fun j => if j = i then none else s.parent j,
                    insts := fun c => if c = b then (s.insts c).erase i else s.insts c } := by
    simp [removeFromParent, removeNodeFromList, hp]
  have he : eraseFromParent s i =
      some { s with parent := fun j => if j = i then none else s.parent j,
                    insts := fun c => if c = b then (s.insts c).erase i else s.insts c,
                    live := fun j => if j = i then false else s.live j } := by
    simp only [eraseFromParent, hr]
  exact ⟨_, _, hr, he, by simp [hnd.not_mem_erase], by simp [hnd.not_mem_erase],
    by simpa using hl, by simp, by simp, by simp⟩

/-- Witness for C8: instruction 0 linked into block 0 of a concrete state. -/
theorem C8_remove_vs_erase_witness : ∃ sr se,
    removeFromParent testS0b 0 = some sr ∧ eraseFromParent testS0b 0 = some se ∧
    0 ∉ sr.insts 0 ∧ 0 ∉ se.insts 0 ∧ sr.live 0 = true ∧ se.live 0 = false ∧
    sr.parent 0 = none ∧ se.parent 0 = none :=
  C8_remove_vs_erase testS0b 0 0 rfl (by decide) rfl

theorem take_drop_decomp (L : List InstId) (lo len : Nat) :
    L = L.take lo ++ ((L.drop lo).take len ++ L.drop (lo + len)) := by
  have h : (L.drop lo).drop len = L.drop (lo + len) := by
    rw [List.drop_drop, Nat.add_comm]
  rw [← h, List.take_append_drop, List.take_append_drop]

theorem splice_disjoint {L : List InstId} (lo len : Nat) (h : L.Nodup) :
    (∀ a ∈ L.take lo, a ∉ (L.drop lo).take len) ∧
    (∀ a ∈ L.drop (lo + len), a ∉ (L.drop lo).take len) := by
  have h2 := h
  rw [take_drop_decomp L lo len] at h2
  obtain ⟨hA, hMC, hdisj⟩ := List.nodup_append.1 h2
  refine ⟨?_, ?_⟩
  · intro a ha hm
    exact hdisj ha (List.mem_append_left _ hm)
  · intro a ha hm
    exact (List.disjoint_of_nodup_append hMC).symm ha hm

theorem filter_not_mem_self {L M : List InstId} (h : ∀ a ∈ L, a ∉ M) :
    L.filter (fun j => !decide (j ∈ M)) = L :=
  List.filter_eq_self.2 (fun a ha => by simpa using h a ha)

theorem filter_mem_nil {M : List InstId} :
    M.filter (fun j => !decide (j ∈ M)) = [] := by
  simp [List.filter_eq_nil_iff]

theorem filter_splice_eq (A M C : List InstId) (p : Nat)
    (hA : ∀ a ∈ A, a ∉ M) (hC : ∀ a ∈ C, a ∉ M) :
    ((A ++ C).take p ++ (M ++ (A ++ C).drop p)).filter (fun j => !decide (j ∈ M)) =
      (A ++ (M ++ C)).filter (fun j => !decide (j ∈ M)) := by
  have hR : ∀ a ∈ A ++ C, a ∉ M := by
    intro a ha
    rcases List.mem_append.1 ha with h | h
    · exact hA a h
    · exact hC a h
  rw [List.filter_append, List.filter_append, List.filter_append, List.filter_append]
  rw [filter_mem_nil, filter_not_mem_self (fun a ha => hR a (List.take_subset _ _ ha)),
      filter_not_mem_self (fun a ha => hR a (List.drop_subset _ _ ha)),
      filter_not_mem_self hA, filter_not_mem_self hC]
  simp [List.take_append_drop]

theorem perm_splice (A M C : List InstId) (p : Nat) :
    List.Perm ((A ++ C).take p ++ (M ++ (A ++ C).drop p)) (A ++ (M ++ C)) := by
  have hTD : (A ++ C).take p ++ (A ++ C).drop p = A ++ C := List.take_append_drop p (A ++ C)
  have h1 : List.Perm ((A ++ C).take p ++ (M ++ (A ++ C).drop p)) (M ++ (A ++ C)) := by
    refine List.Perm.trans List.perm_append_comm ?_
    rw [List.append_assoc]
    refine List.Perm.append_left M ?_
    refine List.Perm.trans List.perm_append_comm ?_
    rw [hTD]
  have h2 : List.Perm (A ++ (M ++ C)) (M ++ (A ++ C)) := by
    refine List.Perm.trans List.perm_append_comm ?_
    rw [List.append_assoc]
    exact List.Perm.append_left M List.perm_append_comm
  exact h1.trans h2.symm

/-- C1: a same-block splice compares the block identities once, skips the
parent-update pass (the parent map is unchanged, so every moved
instruction still references `B`), while the list relinking is still
performed (the block list is a permutation of the old one) and the order
of the instructions outside the moved range is unaltered. -/
theorem C1_same_block_splice (s : ListState) (B destPos lo len : Nat) (i : InstId)
    (hnd : (s.insts B).Nodup) (hp : s.parent i = some B) :
    (splice s B destPos B lo len).parent = s.parent ∧
    (splice s B destPos B lo len).parent i = some B ∧
    transferNodesFromList s.parent B B (((s.insts B).drop lo).take len) = s.parent ∧
    ((splice s B destPos B lo len).insts B).filter
        (fun j => !decide (j ∈ ((s.insts B).drop lo).take len)) =
      (s.insts B).filter (fun j => !decide (j ∈ ((s.insts B).drop lo).take len)) ∧
    List.Perm ((splice s B destPos B lo len).insts B) (s.insts B) := by
  have hpar : (splice s B destPos B lo len).parent = s.parent := by
    simp [splice, transferNodesFromList]
  have hins : (splice s B destPos B lo len).insts B =
      ((s.insts B).take lo ++ (s.insts B).drop (lo + len)).take destPos ++
        ((((s.insts B).drop lo).take len) ++
          ((s.insts B).take lo ++ (s.insts B).drop (lo + len)).drop destPos) := by
    simp [splice]
  obtain ⟨hAM, hCM⟩ := splice_disjoint lo len hnd
  refine ⟨hpar, ?_, ?_, ?_, ?_⟩
  · rw [hpar]; exact hp
  · simp [transferNodesFromList]
  · rw [hins]
    rw [filter_splice_eq ((s.insts B).take lo) (((s.insts B).drop lo).take len)
      ((s.insts B).drop (lo + len)) destPos hAM hCM]
    rw [← take_drop_decomp (s.insts B) lo len]
  · rw [hins]
    have h := perm_splice ((s.insts B).take lo) (((s.insts B).drop lo).take len)
      ((s.insts B).drop (lo + len)) destPos
    rw [← take_drop_decomp (s.insts B) lo len] at h
    exact h

/-- A concrete three-instruction state (instructions 0, 1, 2 in block 0). -/
def testS3 : ListState :=
  { parent := fun j => if j < 3 then some 0 else none,
    insts := fun c => if c = 0 then [0, 1, 2] else [], live := fun _ => true }

/-- Witness for C1: splicing instruction 1 of block 0 to position 2 of the
same block. -/
theorem C1_same_block_splice_witness :
    (splice testS3 0 2 0 1 1).parent = testS3.parent ∧
    (splice testS3 0 2 0 1 1).parent 1 = some 0 ∧
    transferNodesFromList testS3.parent 0 0 (((testS3.insts 0).drop 1).take 1) =
      testS3.parent ∧
    ((splice testS3 0 2 0 1 1).insts 0).filter
        (fun j => !decide (j ∈ ((testS3.insts 0).drop 1).take 1)) =
      (testS3.insts 0).filter (fun j => !decide (j ∈ ((testS3.insts 0).drop 1).take 1)) ∧
    List.Perm ((splice testS3 0 2 0 1 1).insts 0) (testS3.insts 0) :=
  C1_same_block_splice testS3 0 2 1 1 1 (by decide) (by decide)

/-- C3: a cross-block splice from `B1` to a distinct `B2` sets the parent
of every instruction in the moved range to `B2`, and every instruction
remaining in `B1`'s list keeps its parent `B1`. -/
theorem C3_cross_block_splice (s : ListState) (B1 B2 destPos lo len : Nat)
    (hne : B2 ≠ B1) (hnd : (s.insts B1).Nodup) :
    (∀ i ∈ ((s.insts B1).drop lo).take len,
      (splice s B2 destPos B1 lo len).parent i = some B2) ∧
    (∀ i ∈ (splice s B2 destPos B1 lo len).insts B1,
      s.parent i = some B1 → (splice s B2 destPos B1 lo len).parent i = some B1) := by
  have hpar : (splice s B2 destPos B1 lo len).parent =
      fun i => if i ∈ ((s.insts B1).drop lo).take len then some B2 else s.parent i := by
    simp [splice, transferNodesFromList, hne]
  have hins : (splice s B2 destPos B1 lo len).insts B1 =
      (s.insts B1).take lo ++ (s.insts B1).drop (lo + len) := by
    simp [splice, hne]
  obtain ⟨hAM, hCM⟩ := splice_disjoint lo len hnd
  constructor
  · intro i hi
    rw [hpar]
    simp [hi]
  · intro i hi hpi
    rw [hins] at hi
    have hiM : i ∉ ((s.insts B1).drop lo).take len := by
      rcases List.mem_append.1 hi with h | h
      · exact hAM i h
      · exact hCM i h
    rw [hpar]
    simp [hiM, hpi]

/-- Witness for C3: splicing instruction 1 out of block 0 into block 1;
instruction 1 now has parent 1, instruction 0 keeps parent 0. -/
theorem C3_cross_block_splice_witness :
    (splice testS3 1 0 0 1 1).parent 1 = some 1 ∧
    (splice testS3 1 0 0 1 1).parent 0 = some 0 := by
  have h := C3_cross_block_splice testS3 0 1 0 1 1 (by decide) (by decide)
  exact ⟨h.1 1 (by decide), h.2 0 (by decide) (by decide)⟩

/-- Opaque value operands (`swift::Value`): a non-owning reference to the
result produced by some instruction. -/
abbrev Value := Nat

/-- The closed `ValueKind` discriminant over the instruction variants
defined in this file. -/
inductive ValueKind
  | AllocVarInst | AllocBoxInst | AllocArrayInst
  | ApplyInst | ClosureInst | ConstantRefInst | ZeroValueInst
  | IntegerLiteralInst | FloatLiteralInst | StringLiteralInst
  | LoadInst | StoreInst | CopyAddrInst | SpecializeInst
  | ImplicitConvertInst | CoerceInst | DowncastInst
  | TupleInst | MetatypeInst | ExtractInst | ElementAddrInst
  | RefElementAddrInst | RetainInst | ReleaseInst | DeallocVarInst
  | DestroyAddrInst | IndexAddrInst | IntegerValueInst
  | UnreachableInst | ReturnInst | BranchInst | CondBranchInst
  deriving DecidableEq

/-- An instruction tagged with its variant. Terminator variants carry the
successor-relevant payload established by their constructors
(`BranchInst::BranchInst` stores `DestBB`; `CondBranchInst::CondBranchInst`
stores `DestBBs[0] = TrueBB` and `DestBBs[1] = FalseBB`). -/
inductive Inst
  | allocVar | allocBox | allocArray
  | apply | closure | constantRef | zeroValue
  | integerLiteral | floatLiteral | stringLiteral
  | load | store | copyAddr | specialize
  | implicitConvert | coerce | downcast
  | tuple | metatype | extract | elementAddr
  | refElementAddr | retain | release | deallocVar
  | destroyAddr | indexAddr | integerValue
  | unreachable
  | ret (returnValue : Value)
  | branch (destBB : BlockId)
  | condBranch (condition : Value) (trueBB falseBB : BlockId)

/-- The `getKind()` discriminant of an instruction. -/
def valueKindOf : Inst → ValueKind
  | .allocVar => .AllocVarInst
  | .allocBox => .AllocBoxInst
  | .allocArray => .AllocArrayInst
  | .apply => .ApplyInst
  | .closure => .ClosureInst
  | .constantRef => .ConstantRefInst
  | .zeroValue => .ZeroValueInst
  | .integerLiteral => .IntegerLiteralInst
  | .floatLiteral => .FloatLiteralInst
  | .stringLiteral => .StringLiteralInst
  | .load => .LoadInst
  | .store => .StoreInst
  | .copyAddr => .CopyAddrInst
  | .specialize => .SpecializeInst
  | .implicitConvert => .ImplicitConvertInst
  | .coerce => .CoerceInst
  | .downcast => .DowncastInst
  | .tuple => .TupleInst
  | .metatype => .MetatypeInst
  | .extract => .ExtractInst
  | .elementAddr => .ElementAddrInst
  | .refElementAddr => .RefElementAddrInst
  | .retain => .RetainInst
  | .release => .ReleaseInst
  | .deallocVar => .DeallocVarInst
  | .destroyAddr => .DestroyAddrInst
  | .indexAddr => .IndexAddrInst
  | .integerValue => .IntegerValueInst
  | .unreachable => .UnreachableInst
  | .ret _ => .ReturnInst
  | .branch _ => .BranchInst
  | .condBranch _ _ _ => .CondBranchInst

/-- The `isa<TermInst>` classification: exactly the four terminator kinds. -/
def ValueKind.isTermInstKind : ValueKind → Bool
  | .UnreachableInst | .ReturnInst | .BranchInst | .CondBranchInst => true
  | _ => false

/-- Embeds `TermInst::getSuccessors`: first the
`assert(isa<TermInst>(this) && "Only TermInst's are allowed")` (the `none`
result models the assertion firing), then dispatch through the `dyn_cast`
chain on the variant tag in source order: `UnreachableInst`, `ReturnInst`,
`CondBranchInst`, and finally `cast<BranchInst>`. The per-variant successor
lists are modelled from the spec (§4.4): unreachable and return have no
successors, an unconditional branch has `[DestBB]`, and a conditional
branch has `[TrueBB, FalseBB]` in that order. -/
def getSuccessors (I : Inst) : Option (List BlockId) :=
  if (valueKindOf I).isTermInstKind then
    match I with
    | .unreachable => some []
    | .ret _ => some []
    | .condBranch _ t f => some [t, f]
    | .branch d => some [d]
    | _ => none
  else none

/-- C4: successor shape by variant: an unconditional branch reports exactly
`[DestBB]`; a conditional branch reports exactly `[TrueBB, FalseBB]` in
that order; unreachable and return report no successors. -/
theorem C4_successor_shapes :
    (∀ d, getSuccessors (Inst.branch d) = some [d]) ∧
    (∀ c t f, getSuccessors (Inst.condBranch c t f) = some [t, f]) ∧
    getSuccessors Inst.unreachable = some [] ∧
    (∀ v, getSuccessors (Inst.ret v) = some []) :=
  ⟨fun _ => rfl, fun _ _ _ => rfl, rfl, fun _ => rfl⟩

/-- C5: calling `getSuccessors` on a non-terminator trips the
`"Only TermInst's are allowed"` assertion; under the precondition that the
instruction is a terminator the accessor succeeds, and the classification
is exhaustive over exactly the four terminator variants. -/
theorem C5_successor_assertion (I : Inst) :
    (¬ (valueKindOf I).isTermInstKind = true → getSuccessors I = none) ∧
    ((valueKindOf I).isTermInstKind = true → (getSuccessors I).isSome = true) ∧
    ((valueKindOf I).isTermInstKind = true ↔
      I = Inst.unreachable ∨ (∃ v, I = Inst.ret v) ∨
      (∃ d, I = Inst.branch d) ∨ (∃ c t f, I = Inst.condBranch c t f)) := by
  refine ⟨?_, ?_, ?_⟩
  · intro h
    simp [getSuccessors, h]
  · intro h
    cases I <;> simp_all [getSuccessors, valueKindOf, ValueKind.isTermInstKind]
  · cases I <;> simp [valueKindOf, ValueKind.isTermInstKind]

/-- Witness for C5: a `load` is rejected by the assertion; an
`unreachable` is accepted. -/
theorem C5_successor_assertion_witness :
    getSuccessors Inst.load = none ∧ (getSuccessors Inst.unreachable).isSome = true :=
  ⟨(C5_successor_assertion Inst.load).1 (by decide),
   (C5_successor_assertion Inst.unreachable).2.1 rfl⟩

/-- Opaque substitution records attached to specialization instructions. -/
abbrev Substitution := Nat

/-- The fixed header of a `FunctionInst` (apply/closure family) together
with its trailing operand storage. -/
structure FunctionInstData where
  kind : ValueKind
  callee : Value
  numArgs : Nat
  argsStorage : List Value

/-- Embeds `FunctionInst::FunctionInst`: stores the callee, records
`NumArgs = Args.size()` once in the header, and `memcpy`s the
caller-supplied operand list verbatim into the trailing storage. -/
def mkFunctionInst (kind : ValueKind) (callee : Value) (args : List Value) :
    FunctionInstData :=
  { kind := kind, callee := callee, numArgs := args.length, argsStorage := args }

/-- Embeds `ApplyInst::create` / `FunctionInst::create<ApplyInst>`:
allocates `sizeof(ApplyInst) + Args.size() * sizeof(Value)` from the
function's arena and placement-constructs the header. -/
def ApplyInst.create (callee : Value) (args : List Value) : FunctionInstData :=
  mkFunctionInst ValueKind.ApplyInst callee args

/-- Embeds `ClosureInst::create` / `FunctionInst::create<ClosureInst>`. -/
def ClosureInst.create (callee : Value) (args : List Value) : FunctionInstData :=
  mkFunctionInst ValueKind.ClosureInst callee args

/-- The fixed header of a `TupleInst` with its trailing element storage. -/
structure TupleInstData where
  numArgs : Nat
  elementsStorage : List Value

/-- Embeds `TupleInst::TupleInst` via `TupleInst::createImpl`: records
`NumArgs = Elems.size()` and `memcpy`s the elements verbatim. -/
def TupleInst.createImpl (elems : List Value) : TupleInstData :=
  { numArgs := elems.length, elementsStorage := elems }

/-- The fixed header of a `SpecializeInst` with its trailing substitution
storage. -/
structure SpecializeInstData where
  operand : Value
  numSubstitutions : Nat
  substitutionsStorage : List Substitution

/-- Embeds `SpecializeInst::SpecializeInst` via `SpecializeInst::create`:
records `NumSubstitutions = Substitutions.size()` and `memcpy`s the
substitutions verbatim. -/
def SpecializeInst.create (operand : Value) (substs : List Substitution) :
    SpecializeInstData :=
  { operand := operand, numSubstitutions := substs.length,
    substitutionsStorage := substs }

/-- C6: each variable-length constructor (apply, closure, tuple,
specialize) stores the count once in the header and copies the
caller-supplied elements verbatim, so the instruction reports a count
equal to the input length and indexed element `i` equal to input element
`i` for every valid index. -/
theorem C6_varlen_roundtrip (callee operand : Value) (args elems : List Value)
    (substs : List Substitution) :
    (ApplyInst.create callee args).numArgs = args.length ∧
    (∀ (i : Nat) (h : i < args.length),
      (ApplyInst.create callee args).argsStorage.get ⟨i, h⟩ = args.get ⟨i, h⟩) ∧
    (ClosureInst.create callee args).numArgs = args.length ∧
    (∀ (i : Nat) (h : i < args.length),
      (ClosureInst.create callee args).argsStorage.get ⟨i, h⟩ = args.get ⟨i, h⟩) ∧
    (TupleInst.createImpl elems).numArgs = elems.length ∧
    (∀ (i : Nat) (h : i < elems.length),
      (TupleInst.createImpl elems).elementsStorage.get ⟨i, h⟩ = elems.get ⟨i, h⟩) ∧
    (SpecializeInst.create operand substs).numSubstitutions = substs.length ∧
    (∀ (i : Nat) (h : i < substs.length),
      (SpecializeInst.create operand substs).substitutionsStorage.get ⟨i, h⟩ =
        substs.get ⟨i, h⟩) :=
  ⟨rfl, fun _ _ => rfl, rfl, fun _ _ => rfl, rfl, fun _ _ => rfl, rfl, fun _ _ => rfl⟩

/-- Witness for C6 at the concrete operand list `[10, 20, 30]`. -/
theorem C6_varlen_roundtrip_witness :
    (ApplyInst.create 7 [10, 20, 30]).numArgs = 3 ∧
    (ApplyInst.create 7 [10, 20, 30]).argsStorage.get ⟨1, by decide⟩ = 20 ∧
    (ClosureInst.create 7 [10, 20, 30]).argsStorage.get ⟨2, by decide⟩ = 30 ∧
    (TupleInst.createImpl [4, 5]).elementsStorage.get ⟨0, by decide⟩ = 4 ∧
    (SpecializeInst.create 9 [1, 2]).numSubstitutions = 2 := by
  have h := C6_varlen_roundtrip 7 9 [10, 20, 30] [4, 5] [1, 2]
  exact ⟨h.1, h.2.1 1 (by decide), h.2.2.2.1 2 (by decide),
    h.2.2.2.2.2.1 0 (by decide), h.2.2.2.2.2.2.1⟩

/-- A successor-edge slot (`SILSuccessor`): the owning terminator identity
registered by `init`, and the attached target block. -/
structure SILSuccessor where
  containingInst : Option InstId
  successorBlock : Option BlockId
  deriving DecidableEq

/-- One step of the `CondBranchInst` constructor body: either
`DestBBs[k].init(this)` or `DestBBs[k] = TargetBB`. -/
inductive CtorStep
  | initSlot (k : Fin 2)
  | assignSlot (k : Fin 2) (target : BlockId)

def CtorStep.isInit : CtorStep → Bool
  | .initSlot _ => true
  | .assignSlot _ _ => false

def CtorStep.isAssign : CtorStep → Bool
  | .initSlot _ => false
  | .assignSlot _ _ => true

/-- Modelled from the spec: the effect of one constructor step on the two
successor-edge slots (`SILSuccessor::init` and `SILSuccessor::operator=`
are header code). `init` registers the owning instruction identity with
the slot; assignment attaches the target block and requires the
use-registration machinery to have already observed the owning instruction
identity (`none` models assigning through an uninitialized slot). -/
def execStep (self : InstId) (st : Fin 2 → SILSuccessor) :
    CtorStep → Option (Fin 2 → SILSuccessor)
  | .initSlot k => some (fun j => if j = k then ⟨some self, none⟩ else st j)
  | .assignSlot k d =>
      match (st k).containingInst with
      | none => none
      | some owner => some (fun j => if j = k then ⟨some owner, some d⟩ else st j)

/-- Runs a sequence of constructor steps, stopping at the first violation. -/
def execTrace (self : InstId) (st : Fin 2 → SILSuccessor) :
    List CtorStep → Option (Fin 2 → SILSuccessor)
  | [] => some st
  | step :: rest =>
      match execStep self st step with
      | none => none
      | some st2 => execTrace self st2 rest

/-- Embeds the body of `CondBranchInst::CondBranchInst` as its sequence of
distinct steps: `DestBBs[0].init(this); DestBBs[1].init(this);
DestBBs[0] = TrueBB; DestBBs[1] = FalseBB;`. -/
def condBranchCtorTrace (trueBB falseBB : BlockId) : List CtorStep :=
  [CtorStep.initSlot 0, CtorStep.initSlot 1,
   CtorStep.assignSlot 0 trueBB, CtorStep.assignSlot 1 falseBB]

/-- Both successor slots before the constructor body runs. -/
def uninitSlots : Fin 2 → SILSuccessor := fun _ => ⟨none, none⟩

/-- Running the `CondBranchInst` constructor body from uninitialized
slots. -/
def condBranchConstruct (self : InstId) (trueBB falseBB : BlockId) :
    Option (Fin 2 → SILSuccessor) :=
  execTrace self uninitSlots (condBranchCtorTrace trueBB falseBB)

/-- C9: the conditional-branch constructor initializes both successor-edge
slots (registering the owning instruction identity) strictly before
assigning either slot its real target: every `init` step precedes every
assignment step in the trace, the run never assigns through an
uninitialized slot, and the final slots are
`[(self, TrueBB), (self, FalseBB)]`. -/
theorem C9_condbranch_ctor_order (self : InstId) (trueBB falseBB : BlockId) :
    (∃ final, condBranchConstruct self trueBB falseBB = some final ∧
      final 0 = ⟨some self, some trueBB⟩ ∧ final 1 = ⟨some self, some falseBB⟩) ∧
    (∀ i j : Nat, i < (condBranchCtorTrace trueBB falseBB).length →
      j < (condBranchCtorTrace trueBB falseBB).length →
      ((condBranchCtorTrace trueBB falseBB).getD i (CtorStep.initSlot 0)).isInit = true →
      ((condBranchCtorTrace trueBB falseBB).getD j (CtorStep.initSlot 0)).isAssign = true →
      i < j) := by
  constructor
  · exact ⟨_, rfl, rfl, rfl⟩
  · intro i j hi4 hj4 hi hj
    simp [condBranchCtorTrace] at hi4 hj4
    interval_cases i <;> interval_cases j <;>
      simp_all [condBranchCtorTrace, CtorStep.isInit, CtorStep.isAssign]

/-- Witness for C9 with instruction identity 5 and targets 1 and 2. -/
theorem C9_condbranch_ctor_order_witness :
    (∃ final, condBranchConstruct 5 1 2 = some final ∧
      final 0 = ⟨some 5, some 1⟩ ∧ final 1 = ⟨some 5, some 2⟩) ∧ (0 : Nat) < 2 := by
  have h := C9_condbranch_ctor_order 5 1 2
  exact ⟨h.1, h.2 0 2 (by decide) (by decide) rfl rfl⟩

/-- Arbitrary-precision integer (`llvm::APInt`): a bit width and a value
reduced modulo `2 ^ width` by construction. -/
structure APInt where
  numBits : Nat
  val : Nat
  deriving DecidableEq

/-- Embeds the `APInt(32, v)` constructor call: a 32-bit value holding `v`
truncated to 32 bits. -/
def APInt.mk32 (v : Nat) : APInt := ⟨32, v % 2 ^ 32⟩

/-- The AST expression node backing an integer-literal instruction, as
classified by the `dyn_cast` chain in `IntegerLiteralInst::getValue`. -/
inductive LitExpr
  | integerLiteralExpr (value : APInt)
  | characterLiteralExpr (value : Nat)
  | otherExpr

/-- An `IntegerLiteralInst` stores (as its location) the backing AST
expression, recoverable through `getExpr()`. -/
structure IntegerLiteralInst where
  locExpr : LitExpr

/-- Embeds `IntegerLiteralInst::IntegerLiteralInst(IntegerLiteralExpr *E)`. -/
def IntegerLiteralInst.ofIntegerLiteralExpr (v : APInt) : IntegerLiteralInst :=
  ⟨LitExpr.integerLiteralExpr v⟩

/-- Embeds `IntegerLiteralInst::IntegerLiteralInst(CharacterLiteralExpr *E)`. -/
def IntegerLiteralInst.ofCharacterLiteralExpr (c : Nat) : IntegerLiteralInst :=
  ⟨LitExpr.characterLiteralExpr c⟩

/-- Embeds `IntegerLiteralInst::getValue`: `dyn_cast` to
`IntegerLiteralExpr` yields the expression's APInt value; `dyn_cast` to
`CharacterLiteralExpr` yields `APInt(32, charExpr->getValue())`; any other
node kind reaches `llvm_unreachable` (modelled as `none`). -/
def IntegerLiteralInst.getValue (I : IntegerLiteralInst) : Option APInt :=
  match I.locExpr with
  | LitExpr.integerLiteralExpr v => some v
  | LitExpr.characterLiteralExpr c => some (APInt.mk32 c)
  | LitExpr.otherExpr => none

/-- C10: an integer-literal instruction constructed from an integer-literal
expression yields that expression's arbitrary-precision value; constructed
from a character-literal expression it yields a 32-bit value holding the
character code; any other backing node reaches the fatal unreachable-state
mechanism. -/
theorem C10_integer_literal_value (v : APInt) (c : Nat) :
    (IntegerLiteralInst.ofIntegerLiteralExpr v).getValue = some v ∧
    (IntegerLiteralInst.ofCharacterLiteralExpr c).getValue =
      some ⟨32, c % 2 ^ 32⟩ ∧
    IntegerLiteralInst.getValue ⟨LitExpr.otherExpr⟩ = none :=
  ⟨rfl, rfl, rfl⟩

end SILModel
